import Mathlib

/-!
Verification of the option-byte reconciliation engine and device lifecycle
controller implemented by class OpenOCDProgrammer in
scripts/flipper/utils/programmer_openocd.py.

The pure data path (mask unpacking, the patch decision, the merged register
value, the byte-wise comparison, the diff-table rendering) is translated
directly from that file. The collaborators that live outside it — the OpenOCD
command channel (start, stop, read_32, write_32, send_tcl), the STM32WB55
register map and lifecycle helpers (clear_flash_errors, flash_unlock,
option_bytes_unlock, option_bytes_apply, option_bytes_load, reset,
write_flash, OPTION_BYTE_BASE, option_bytes_id_to_address) and the
OptionBytesData declaration parser — are modelled from the specification's
external-interface contracts: each probe interaction becomes one event in a
trace, reads return 32-bit values and may fail (channel error), the parser
either produces the three byte buffers or fails, and the base address and the
index-to-register mapping are abstract parameters. An operation returns the
trace of events it performed together with some result on normal completion,
or none when an exception escaped; the events recorded before the failure are
kept, matching the propagate-without-swallowing behaviour of the Python code.

Machine integers are Nat with explicit reduction mod 2 ^ 32 at the read
boundary; bytes are Nat below 256 (stated as hypotheses where a theorem needs
it). Python strings in the diff table are character lists.
-/

namespace OpenOCDProgrammer

/-- Option byte image: the three parallel byte buffers produced by the
external declaration parser (reference, compare_mask, write_mask attributes
of OptionBytesData(file).gen_values().export()). Bytes are modelled as Nat;
a well-formed image has every entry below 256. -/
structure Image where
  reference : List Nat
  compare_mask : List Nat
  write_mask : List Nat
  deriving DecidableEq, Repr

/-- Modelled from the spec: the probe session and device lifecycle commands.
The OpenOCD channel (start, stop, read_32, write_32, send_tcl) and the
STM32WB55 lifecycle helpers (clear_flash_errors, flash_unlock,
option_bytes_unlock, option_bytes_apply, option_bytes_load, reset,
write_flash) live outside the analysed file; spec section 6 lists them as
named commands of the external probe and register-map contracts. Each probe
interaction is one trace event; the two log lines that the claims mention
(the need-to-patch line, carrying the dword index, and the
already-correct line) are recorded as events too. -/
inductive Event where
  | start
  | stop
  | resetInit
  | resetRun
  | clearFlashErrors
  | flashUnlock
  | optionBytesUnlock
  | optionBytesApply
  | optionBytesLoad
  | read32 (addr : Nat)
  | write32 (addr val : Nat)
  | writeFlash (addr : Nat)
  | tclInit
  | tclProgram
  | tclMdw (addr : Nat)
  | logNeedPatch (i : Nat)
  | logAlreadyCorrect
  deriving DecidableEq, Repr

/-- Modelled from the spec: OpenOCD.read_32 returns the 32-bit word at the
given address (spec section 6, readWord). The device oracle may fail
(channel error, propagated as an exception), and a returned value is
reduced to 32 bits. -/
def read32 (dev : Nat → Option Nat) (addr : Nat) : Option Nat :=
  (dev addr).map (fun v => v % 2 ^ 32)

/-- Device oracle on which every read succeeds. -/
def totalDev (f : Nat → Nat) : Nat → Option Nat :=
  fun a => some (f a)

/-- Little-endian value of a byte list, as int.from_bytes(-, little). -/
def lebytes : List Nat → Nat
  | [] => 0
  | b :: rest => b + 256 * lebytes rest

/-- Method _unpack_u32 (lines 131-132): int.from_bytes of the four-byte
slice of data starting at offset, little-endian. -/
def unpack_u32 (data : List Nat) (offset : Nat) : Nat :=
  lebytes ((data.drop offset).take 4)

/-- Little-endian bytes of a 32-bit value, as value.to_bytes(4, little). -/
def toBytes4 (v : Nat) : List Nat :=
  [v % 256, v / 2 ^ 8 % 256, v / 2 ^ 16 % 256, v / 2 ^ 24 % 256]

/-- Bitwise complement within 32 bits. For m below 2 ^ 32, the Python
expression x & ~m with x below 2 ^ 32 equals x &&& not32 m: the complement
of the unbounded int m differs only above bit 31, where x has no bits. -/
def not32 (m : Nat) : Nat := (2 ^ 32 - 1) ^^^ m

/-- Merged register value of lines 182-183: keep the bits outside the write
mask from the live value, take the writable bits from the reference. -/
def newValue (live refv wm : Nat) : Nat :=
  (live &&& not32 wm) ||| (refv &&& wm)

/-- Patch decision of line 170 for dword index i against a total device f:
mask the live word with the compare mask, xor with the reference word,
restrict to the write mask, test for a nonzero result. -/
def needsPatchB (base : Nat) (f : Nat → Nat) (img : Image) (i : Nat) : Bool :=
  ((f (base + i * 8) % 2 ^ 32 &&& unpack_u32 img.compare_mask (i * 8)) ^^^
      unpack_u32 img.reference (i * 8)) &&& unpack_u32 img.write_mask (i * 8) != 0

/-- Patch loop of option_bytes_set (lines 162-186): for each dword index,
read the live word at base + i * 8, decide need_patch, and when needed log
the index and write the merged value to the register address resolved by
idToAddr; the Bool accumulator is ob_need_to_apply. A failed read raises:
the trace stops there and none is returned. -/
def setLoop (base : Nat) (idToAddr : Nat → Nat) (dev : Nat → Option Nat)
    (img : Image) : List Nat → Bool → List Event × Option Bool
  | [], acc => ([], some acc)
  | i :: rest, acc =>
    let device_addr := base + i * 8
    match read32 dev device_addr with
    | none => ([Event.read32 device_addr], none)
    | some device_value =>
      let ob_write_mask := unpack_u32 img.write_mask (i * 8)
      let ob_compare_mask := unpack_u32 img.compare_mask (i * 8)
      let ob_value_ref := unpack_u32 img.reference (i * 8)
      let ob_value_masked := device_value &&& ob_compare_mask
      let need_patch := (ob_value_masked ^^^ ob_value_ref) &&& ob_write_mask != 0
      if need_patch then
        let device_reg_addr := idToAddr i
        let ob_value := newValue device_value ob_value_ref ob_write_mask
        let next := setLoop base idToAddr dev img rest true
        (Event.read32 device_addr :: Event.logNeedPatch i ::
          Event.write32 device_reg_addr ob_value :: next.1, next.2)
      else
        let next := setLoop base idToAddr dev img rest acc
        (Event.read32 device_addr :: next.1, next.2)

/-- Method option_bytes_set (lines 134-201). base is
STM32WB55.OPTION_BYTE_BASE and idToAddr is
STM32WB55.option_bytes_id_to_address, both outside the analysed file and
kept abstract; parse models OptionBytesData(file_path): none is a missing or
unparsable declaration file, whose exception escapes after the session has
started and the device was reset to halt. On normal completion the trace
ends with the unconditional option-byte load, the reset to run and the
session stop, and the result is some true. -/
def option_bytes_set (base : Nat) (idToAddr : Nat → Nat)
    (dev : Nat → Option Nat) (parse : Option Image) : List Event × Option Bool :=
  match parse with
  | none => ([Event.start, Event.resetInit], none)
  | some img =>
    let ob_dwords := img.reference.length / 8
    let pre := [Event.start, Event.resetInit, Event.clearFlashErrors,
      Event.flashUnlock, Event.optionBytesUnlock]
    match setLoop base idToAddr dev img (List.range ob_dwords) false with
    | (evs, none) => (pre ++ evs, none)
    | (evs, some needApply) =>
      (pre ++ evs ++
        (if needApply then [Event.optionBytesApply] else [Event.logAlreadyCorrect]) ++
        [Event.optionBytesLoad, Event.resetRun, Event.stop], some true)

/-- Read loop of option_bytes_validate (lines 104-108): read the word at
base + i * 4 for each index, convert to little-endian bytes, concatenate.
A failed read raises: the trace stops there and none is returned. -/
def validateReads (base : Nat) (dev : Nat → Option Nat) :
    List Nat → List Event × Option (List Nat)
  | [] => ([], some [])
  | i :: rest =>
    let addr := base + i * 4
    match read32 dev addr with
    | none => ([Event.read32 addr], none)
    | some v =>
      let next := validateReads base dev rest
      (Event.read32 addr :: next.1, next.2.map (fun bs => toBytes4 v ++ bs))

/-- Masked device bytes of lines 111-113: ob_read[i] & ob_compare_mask[i]
for every i below ob_length. The indexing is in range under the image
invariant (buffers of equal length, a multiple of 8, spec section 3), which
the theorems assume. -/
def ob_compare_bytes (ob_length : Nat) (ob_read cm : List Nat) : List Nat :=
  (List.range ob_length).map (fun i => ob_read.getD i 0 &&& cm.getD i 0)

/-- Method option_bytes_validate (lines 87-129): start the session, reset to
halt, parse the declaration file, read the option bytes word by word, mask
them with the compare mask, compare against the reference, reset to run,
stop the session; the returned flag is true exactly on a mismatch. -/
def option_bytes_validate (base : Nat) (dev : Nat → Option Nat)
    (parse : Option Image) : List Event × Option Bool :=
  match parse with
  | none => ([Event.start, Event.resetInit], none)
  | some img =>
    let ob_length := img.reference.length
    let ob_words := ob_length / 4
    match validateReads base dev (List.range ob_words) with
    | (evs, none) => ([Event.start, Event.resetInit] ++ evs, none)
    | (evs, some ob_read) =>
      let ob_compare := ob_compare_bytes ob_length ob_read img.compare_mask
      let return_code := if img.reference = ob_compare then false else true
      ([Event.start, Event.resetInit] ++ evs ++ [Event.resetRun, Event.stop],
        some return_code)

/-- Method flash (lines 47-58): the os.path.exists check precedes
openocd.start, so a missing file raises before any probe interaction; the
programming itself is a single delegated probe command. -/
def flash (fileExists : Bool) : List Event × Option Bool :=
  if fileExists then
    ([Event.start, Event.tclInit, Event.tclProgram, Event.stop], some true)
  else
    ([], none)

/-- Method otp_write (lines 203-228): a fixed sequence of probe
interactions; the two sentinel double-word writes go through
STM32WB55.write_flash and the diagnostic dumps through send_tcl mdw. -/
def otp_write (address : Nat) : List Event × Option Bool :=
  ([Event.start, Event.resetInit, Event.clearFlashErrors,
    Event.tclMdw address, Event.tclMdw (address + 8),
    Event.writeFlash address, Event.writeFlash (address + 8),
    Event.tclMdw address, Event.tclMdw (address + 8),
    Event.resetRun, Event.stop], some true)

/-- Device option bytes as option_bytes_validate reads them back
(lines 104-108): the words at base + i * 4 for i below words, each taken
little-endian, concatenated into one byte list. -/
def ob_read_bytes (base : Nat) (f : Nat → Nat) (words : Nat) : List Nat :=
  (List.range words).flatMap (fun i => toBytes4 (f (base + i * 4) % 2 ^ 32))

/-- Lowercase hex digit, as Python produces in bytes.hex(). -/
def hexDigit (n : Nat) : Char :=
  if n < 10 then Char.ofNat (48 + n) else Char.ofNat (87 + n)

/-- The two lowercase hex characters of one byte. -/
def hexPair (b : Nat) : List Char := [hexDigit (b / 16), hexDigit (b % 16)]

/-- Characters of bytes.hex(): the hex pairs of all bytes, concatenated. -/
def bytesHex (l : List Nat) : List Char := (l.map hexPair).flatten

/-- Python string slice s[j:k] on a character list. -/
def charSlice (s : List Char) (j k : Nat) : List Char := (s.drop j).take (k - j)

/-- Inner loop of _ob_print_diff_table (lines 70-81) for one chunk pair:
walk the hex strings of the two chunks two characters at a time, appending
two underscores to both diff strings when the hex pairs agree and the
literal hex pairs otherwise. Strings are modelled as character lists. -/
def diffRow (ref rd : List Nat) : List Char × List Char :=
  (List.range ref.length).foldl
    (fun acc i =>
      let j := 2 * i
      let byte_str_1 := charSlice (bytesHex ref) j (j + 2)
      let byte_str_2 := charSlice (bytesHex rd) j (j + 2)
      if byte_str_1 = byte_str_2 then
        (acc.1 ++ ['_', '_'], acc.2 ++ ['_', '_'])
      else
        (acc.1 ++ byte_str_1, acc.2 ++ byte_str_2))
    ([], [])

/-- Events contributed by one dword index of the patch loop on a total
device: the read, then, when the patch decision fires, the log line and the
write of the merged value to the resolved register address. -/
def dwordEvents (base : Nat) (idToAddr : Nat → Nat) (f : Nat → Nat)
    (img : Image) (i : Nat) : List Event :=
  Event.read32 (base + i * 8) ::
    (if needsPatchB base f img i then
      [Event.logNeedPatch i,
        Event.write32 (idToAddr i)
          (newValue (f (base + i * 8) % 2 ^ 32)
            (unpack_u32 img.reference (i * 8)) (unpack_u32 img.write_mask (i * 8)))]
    else [])

theorem setLoop_totalDev (base : Nat) (a : Nat → Nat) (f : Nat → Nat) (img : Image) :
    ∀ (l : List Nat) (acc : Bool),
      setLoop base a (totalDev f) img l acc =
        (l.flatMap (dwordEvents base a f img),
          some (acc || l.any (needsPatchB base f img))) := by
  intro l
  induction l with
  | nil => intro acc; simp [setLoop]
  | cons i rest ih =>
    intro acc
    by_cases h : needsPatchB base f img i
    · simp only [setLoop, read32, totalDev, Option.map_some']
      rw [if_pos (by simpa [needsPatchB] using h)]
      simp [ih, dwordEvents, h, Bool.or_assoc]
    · simp only [setLoop, read32, totalDev, Option.map_some']
      rw [if_neg (by simpa [needsPatchB] using h)]
      simp [ih, dwordEvents, h, Bool.or_assoc]

theorem option_bytes_set_totalDev (base : Nat) (a : Nat → Nat) (f : Nat → Nat)
    (img : Image) :
    option_bytes_set base a (totalDev f) (some img) =
      ([Event.start, Event.resetInit, Event.clearFlashErrors, Event.flashUnlock,
        Event.optionBytesUnlock] ++
        (List.range (img.reference.length / 8)).flatMap (dwordEvents base a f img) ++
        (if (List.range (img.reference.length / 8)).any (needsPatchB base f img)
          then [Event.optionBytesApply] else [Event.logAlreadyCorrect]) ++
        [Event.optionBytesLoad, Event.resetRun, Event.stop], some true) := by
  simp [option_bytes_set, setLoop_totalDev]

theorem validateReads_totalDev (base : Nat) (f : Nat → Nat) :
    ∀ l : List Nat,
      validateReads base (totalDev f) l =
        (l.map (fun i => Event.read32 (base + i * 4)),
          some (l.flatMap (fun i => toBytes4 (f (base + i * 4) % 2 ^ 32)))) := by
  intro l
  induction l with
  | nil => simp [validateReads]
  | cons i rest ih => simp [validateReads, read32, totalDev, ih]

theorem option_bytes_validate_totalDev (base : Nat) (f : Nat → Nat) (img : Image) :
    option_bytes_validate base (totalDev f) (some img) =
      ([Event.start, Event.resetInit] ++
        (List.range (img.reference.length / 4)).map (fun i => Event.read32 (base + i * 4)) ++
        [Event.resetRun, Event.stop],
        some (if img.reference =
            ob_compare_bytes img.reference.length
              (ob_read_bytes base f (img.reference.length / 4)) img.compare_mask
          then false else true)) := by
  simp [option_bytes_validate, validateReads_totalDev, ob_read_bytes]

theorem logNeedPatch_mem_dwordEvents (base : Nat) (a : Nat → Nat) (f : Nat → Nat)
    (img : Image) (i j : Nat) :
    Event.logNeedPatch i ∈ dwordEvents base a f img j ↔
      needsPatchB base f img j = true ∧ j = i := by
  by_cases h : needsPatchB base f img j <;> simp [dwordEvents, h, eq_comm]

theorem write32_mem_dwordEvents (base : Nat) (a : Nat → Nat) (f : Nat → Nat)
    (img : Image) (ad v j : Nat) :
    Event.write32 ad v ∈ dwordEvents base a f img j ↔
      needsPatchB base f img j = true ∧ ad = a j ∧
        v = newValue (f (base + j * 8) % 2 ^ 32) (unpack_u32 img.reference (j * 8))
          (unpack_u32 img.write_mask (j * 8)) := by
  by_cases h : needsPatchB base f img j <;> simp [dwordEvents, h]

theorem apply_not_mem_dwordEvents (base : Nat) (a : Nat → Nat) (f : Nat → Nat)
    (img : Image) (j : Nat) :
    Event.optionBytesApply ∉ dwordEvents base a f img j := by
  by_cases h : needsPatchB base f img j <;> simp [dwordEvents, h]

theorem alreadyCorrect_not_mem_dwordEvents (base : Nat) (a : Nat → Nat) (f : Nat → Nat)
    (img : Image) (j : Nat) :
    Event.logAlreadyCorrect ∉ dwordEvents base a f img j := by
  by_cases h : needsPatchB base f img j <;> simp [dwordEvents, h]

theorem logNeedPatch_mem_set_trace (base : Nat) (a : Nat → Nat) (f : Nat → Nat)
    (img : Image) (i : Nat) :
    Event.logNeedPatch i ∈ (option_bytes_set base a (totalDev f) (some img)).1 ↔
      i < img.reference.length / 8 ∧ needsPatchB base f img i = true := by
  cases hany : (List.range (img.reference.length / 8)).any (needsPatchB base f img) <;>
    · simp only [option_bytes_set_totalDev, hany]
      simp [List.mem_append, List.mem_flatMap, logNeedPatch_mem_dwordEvents]

theorem write32_mem_set_trace (base : Nat) (a : Nat → Nat) (f : Nat → Nat)
    (img : Image) (ad v : Nat) :
    Event.write32 ad v ∈ (option_bytes_set base a (totalDev f) (some img)).1 ↔
      ∃ j, j < img.reference.length / 8 ∧ needsPatchB base f img j = true ∧
        ad = a j ∧
        v = newValue (f (base + j * 8) % 2 ^ 32) (unpack_u32 img.reference (j * 8))
          (unpack_u32 img.write_mask (j * 8)) := by
  cases hany : (List.range (img.reference.length / 8)).any (needsPatchB base f img) <;>
    · simp only [option_bytes_set_totalDev, hany]
      simp [List.mem_append, List.mem_flatMap, write32_mem_dwordEvents]

theorem apply_mem_set_trace (base : Nat) (a : Nat → Nat) (f : Nat → Nat)
    (img : Image) :
    Event.optionBytesApply ∈ (option_bytes_set base a (totalDev f) (some img)).1 ↔
      (List.range (img.reference.length / 8)).any (needsPatchB base f img) = true := by
  cases hany : (List.range (img.reference.length / 8)).any (needsPatchB base f img) <;>
    · simp only [option_bytes_set_totalDev, hany]
      simp [List.mem_append, List.mem_flatMap, apply_not_mem_dwordEvents]

theorem alreadyCorrect_mem_set_trace (base : Nat) (a : Nat → Nat) (f : Nat → Nat)
    (img : Image) :
    Event.logAlreadyCorrect ∈ (option_bytes_set base a (totalDev f) (some img)).1 ↔
      (List.range (img.reference.length / 8)).any (needsPatchB base f img) = false := by
  cases hany : (List.range (img.reference.length / 8)).any (needsPatchB base f img) <;>
    · simp only [option_bytes_set_totalDev, hany]
      simp [List.mem_append, List.mem_flatMap, alreadyCorrect_not_mem_dwordEvents]

theorem load_mem_set_trace (base : Nat) (a : Nat → Nat) (f : Nat → Nat)
    (img : Image) :
    Event.optionBytesLoad ∈ (option_bytes_set base a (totalDev f) (some img)).1 := by
  cases hany : (List.range (img.reference.length / 8)).any (needsPatchB base f img) <;>
    · simp only [option_bytes_set_totalDev, hany]
      simp [List.mem_append]

theorem lebytes_lt (l : List Nat) (h : ∀ b ∈ l, b < 256) :
    lebytes l < 256 ^ l.length := by
  induction l with
  | nil => simp [lebytes]
  | cons b rest ih =>
    have hb := h b (List.mem_cons_self b rest)
    have hr := ih (fun x hx => h x (List.mem_cons_of_mem b hx))
    have h1 : b + 256 * lebytes rest < 256 * (lebytes rest + 1) := by omega
    have h2 : 256 * (lebytes rest + 1) ≤ 256 * 256 ^ rest.length :=
      Nat.mul_le_mul_left 256 hr
    simp only [lebytes, List.length_cons, pow_succ]
    calc b + 256 * lebytes rest < 256 * (lebytes rest + 1) := h1
      _ ≤ 256 * 256 ^ rest.length := h2
      _ = 256 ^ rest.length * 256 := Nat.mul_comm _ _

theorem unpack_u32_lt (data : List Nat) (off : Nat) (h : ∀ b ∈ data, b < 256) :
    unpack_u32 data off < 2 ^ 32 := by
  have hlt := lebytes_lt ((data.drop off).take 4)
    (fun b hb => h b (List.drop_subset off data (List.take_subset 4 _ hb)))
  have hlen : ((data.drop off).take 4).length ≤ 4 := by
    simp [List.length_take]
  calc unpack_u32 data off < 256 ^ ((data.drop off).take 4).length := hlt
    _ ≤ 256 ^ 4 := Nat.pow_le_pow_right (by norm_num) hlen
    _ = 2 ^ 32 := by norm_num

theorem testBit_ge_32 (x j : Nat) (hx : x < 2 ^ 32) (hj : 32 ≤ j) :
    x.testBit j = false :=
  Nat.testBit_lt_two_pow (lt_of_lt_of_le hx (Nat.pow_le_pow_right (by norm_num) hj))

theorem newValue_and_not32 (live refv wm : Nat) (hw : wm < 2 ^ 32) :
    newValue live refv wm &&& not32 wm = live &&& not32 wm := by
  apply Nat.eq_of_testBit_eq
  intro j
  simp only [newValue, not32, Nat.testBit_and, Nat.testBit_or, Nat.testBit_xor,
    Nat.testBit_two_pow_sub_one]
  by_cases hj : j < 32
  · simp only [hj, decide_True]
    cases wm.testBit j <;> cases live.testBit j <;> cases refv.testBit j <;> rfl
  · have hw1 : wm.testBit j = false := testBit_ge_32 wm j hw (le_of_not_lt hj)
    simp [hj, hw1]

theorem newValue_and_mask (live refv wm : Nat) (hw : wm < 2 ^ 32) :
    newValue live refv wm &&& wm = refv &&& wm := by
  apply Nat.eq_of_testBit_eq
  intro j
  simp only [newValue, not32, Nat.testBit_and, Nat.testBit_or, Nat.testBit_xor,
    Nat.testBit_two_pow_sub_one]
  by_cases hj : j < 32
  · simp only [hj, decide_True]
    cases wm.testBit j <;> cases live.testBit j <;> cases refv.testBit j <;> rfl
  · have hw1 : wm.testBit j = false := testBit_ge_32 wm j hw (le_of_not_lt hj)
    simp [hj, hw1]

theorem needsPatch_after_patch (live refv cm wm : Nat)
    (hw : wm < 2 ^ 32) (hpre : refv &&& not32 cm = 0) :
    ((newValue live refv wm &&& cm) ^^^ refv) &&& wm = 0 := by
  apply Nat.eq_of_testBit_eq
  intro j
  have hp := congrArg (fun n => Nat.testBit n j) hpre
  simp only [newValue, not32, Nat.testBit_and, Nat.testBit_or, Nat.testBit_xor,
    Nat.testBit_two_pow_sub_one, Nat.zero_testBit] at hp ⊢
  by_cases hj : j < 32
  · simp only [hj, decide_True] at hp ⊢
    cases hc : cm.testBit j <;> cases hrj : refv.testBit j <;>
      cases hl : live.testBit j <;> cases hwj : wm.testBit j <;> simp_all
  · have hw1 : wm.testBit j = false := testBit_ge_32 wm j hw (le_of_not_lt hj)
    simp [hj, hw1]

set_option maxRecDepth 2000 in
theorem byte_and_not_self : ∀ c < 256, c &&& (255 ^^^ c) = 0 := by decide

theorem masked_ne_of_outside (c r d : Nat) (hc : c < 256)
    (hr : r &&& (255 ^^^ c) ≠ 0) : d &&& c ≠ r := by
  intro h
  apply hr
  rw [← h, Nat.and_assoc, byte_and_not_self c hc, Nat.and_zero]

theorem list_ne_iff_exists_getD (l₁ l₂ : List Nat) (h : l₁.length = l₂.length) :
    l₁ ≠ l₂ ↔ ∃ k < l₁.length, l₁.getD k 0 ≠ l₂.getD k 0 := by
  constructor
  · intro hne
    by_contra hno
    push_neg at hno
    apply hne
    apply List.ext_getElem h
    intro i h1 h2
    have hi := hno i h1
    rwa [List.getD_eq_getElem l₁ 0 h1, List.getD_eq_getElem l₂ 0 h2] at hi
  · rintro ⟨k, hk, hne⟩ heq
    exact hne (by rw [heq])

theorem ob_compare_bytes_getD (L : Nat) (rd cm : List Nat) (k : Nat) (hk : k < L) :
    (ob_compare_bytes L rd cm).getD k 0 = rd.getD k 0 &&& cm.getD k 0 := by
  have hlen : k < (ob_compare_bytes L rd cm).length := by
    simpa [ob_compare_bytes] using hk
  rw [List.getD_eq_getElem _ 0 hlen]
  simp [ob_compare_bytes, hk]

theorem validate_result_iff (base : Nat) (f : Nat → Nat) (img : Image) :
    (option_bytes_validate base (totalDev f) (some img)).2 = some true ↔
      ∃ k < img.reference.length,
        (ob_read_bytes base f (img.reference.length / 4)).getD k 0 &&&
          img.compare_mask.getD k 0 ≠ img.reference.getD k 0 := by
  rw [option_bytes_validate_totalDev]
  have hlen2 : (ob_compare_bytes img.reference.length
      (ob_read_bytes base f (img.reference.length / 4)) img.compare_mask).length =
      img.reference.length := by simp [ob_compare_bytes]
  constructor
  · intro h
    have hne : img.reference ≠ ob_compare_bytes img.reference.length
        (ob_read_bytes base f (img.reference.length / 4)) img.compare_mask := by
      intro heq
      rw [if_pos heq] at h
      exact Bool.noConfusion (Option.some_inj.mp h)
    obtain ⟨k, hk, hne2⟩ := (list_ne_iff_exists_getD _ _ hlen2.symm).mp hne
    refine ⟨k, hk, ?_⟩
    rw [ob_compare_bytes_getD _ _ _ k hk] at hne2
    exact hne2.symm
  · rintro ⟨k, hk, hne⟩
    have hne' : img.reference ≠ ob_compare_bytes img.reference.length
        (ob_read_bytes base f (img.reference.length / 4)) img.compare_mask := by
      apply (list_ne_iff_exists_getD _ _ hlen2.symm).mpr
      exact ⟨k, hk, by rw [ob_compare_bytes_getD _ _ _ k hk]; exact hne.symm⟩
    rw [if_neg hne']

theorem hexDigit_inj : ∀ a < 16, ∀ b < 16, hexDigit a = hexDigit b → a = b := by decide

theorem hexPair_inj (a b : Nat) (ha : a < 256) (hb : b < 256) :
    hexPair a = hexPair b ↔ a = b := by
  constructor
  · intro h
    simp only [hexPair, List.cons.injEq, and_true] at h
    have e1 : a / 16 = b / 16 :=
      hexDigit_inj _ (by omega) _ (by omega) h.1
    have e2 : a % 16 = b % 16 :=
      hexDigit_inj _ (by omega) _ (by omega) h.2
    omega
  · intro h; rw [h]

theorem charSlice_bytesHex (l : List Nat) :
    ∀ i, i < l.length →
      charSlice (bytesHex l) (2 * i) (2 * i + 2) = hexPair (l.getD i 0) := by
  induction l with
  | nil => intro i hi; exact absurd hi (by simp)
  | cons b rest ih =>
    intro i hi
    cases i with
    | zero => simp [charSlice, bytesHex, hexPair]
    | succ n =>
      have hn : n < rest.length := by simpa using hi
      have h2 : 2 * (n + 1) = 2 * n + 1 + 1 := by ring
      have hh : bytesHex (b :: rest) =
          hexDigit (b / 16) :: hexDigit (b % 16) :: bytesHex rest := by
        simp [bytesHex, hexPair]
      simp only [charSlice, hh, h2, List.drop_succ_cons, List.getD_cons_succ]
      have := ih n hn
      simpa [charSlice] using this

theorem foldl_append_pair (F G : Nat → List Char) :
    ∀ (l : List Nat) (acc : List Char × List Char),
      l.foldl (fun acc i => (acc.1 ++ F i, acc.2 ++ G i)) acc =
        (acc.1 ++ (l.map F).flatten, acc.2 ++ (l.map G).flatten) := by
  intro l
  induction l with
  | nil => intro acc; simp
  | cons i rest ih => intro acc; simp [List.foldl_cons, ih]

theorem diffRow_eq (ref rd : List Nat) :
    diffRow ref rd =
      (((List.range ref.length).map (fun i =>
          if charSlice (bytesHex ref) (2 * i) (2 * i + 2) =
              charSlice (bytesHex rd) (2 * i) (2 * i + 2)
          then ['_', '_'] else charSlice (bytesHex ref) (2 * i) (2 * i + 2))).flatten,
        ((List.range ref.length).map (fun i =>
          if charSlice (bytesHex ref) (2 * i) (2 * i + 2) =
              charSlice (bytesHex rd) (2 * i) (2 * i + 2)
          then ['_', '_'] else charSlice (bytesHex rd) (2 * i) (2 * i + 2))).flatten) := by
  unfold diffRow
  have hstep : (fun (acc : List Char × List Char) (i : Nat) =>
      let j := 2 * i
      let byte_str_1 := charSlice (bytesHex ref) j (j + 2)
      let byte_str_2 := charSlice (bytesHex rd) j (j + 2)
      if byte_str_1 = byte_str_2 then
        (acc.1 ++ ['_', '_'], acc.2 ++ ['_', '_'])
      else
        (acc.1 ++ byte_str_1, acc.2 ++ byte_str_2)) =
      (fun (acc : List Char × List Char) (i : Nat) =>
        (acc.1 ++ (if charSlice (bytesHex ref) (2 * i) (2 * i + 2) =
              charSlice (bytesHex rd) (2 * i) (2 * i + 2)
            then ['_', '_'] else charSlice (bytesHex ref) (2 * i) (2 * i + 2)),
          acc.2 ++ (if charSlice (bytesHex ref) (2 * i) (2 * i + 2) =
              charSlice (bytesHex rd) (2 * i) (2 * i + 2)
            then ['_', '_'] else charSlice (bytesHex rd) (2 * i) (2 * i + 2)))) := by
    funext acc i
    dsimp only
    split <;> rfl
  rw [hstep, foldl_append_pair]
  simp

/-- C1: in option_bytes_set, the patch decision for dword index i is exactly
needsPatch(i) = (((live value read at base + i * 8) and compareMask_i) xor
reference_i) and writeMask_i ≠ 0, where the three masks are the
little-endian 32-bit values taken at byte offset i * 8 of their buffers (the
need-to-patch log line carrying index i is emitted exactly when the decision
fires); in particular the decision is never taken when writeMask_i = 0. -/
theorem optionBytesSet_patch_decision (base : Nat) (a : Nat → Nat) (f : Nat → Nat)
    (img : Image) (i : Nat) (hi : i < img.reference.length / 8) :
    (Event.logNeedPatch i ∈ (option_bytes_set base a (totalDev f) (some img)).1 ↔
      ((f (base + i * 8) % 2 ^ 32 &&& unpack_u32 img.compare_mask (i * 8)) ^^^
          unpack_u32 img.reference (i * 8)) &&& unpack_u32 img.write_mask (i * 8) ≠ 0) ∧
    (unpack_u32 img.write_mask (i * 8) = 0 →
      Event.logNeedPatch i ∉ (option_bytes_set base a (totalDev f) (some img)).1) := by
  constructor
  · rw [logNeedPatch_mem_set_trace]
    constructor
    · rintro ⟨-, h⟩
      simpa [needsPatchB] using h
    · intro h
      exact ⟨hi, by simpa [needsPatchB] using h⟩
  · intro hw hmem
    obtain ⟨-, h⟩ := (logNeedPatch_mem_set_trace base a f img i).mp hmem
    simp [needsPatchB, hw] at h

/-- Witness for the C1 theorem: a concrete image and device where the
decision fires at dword index 0. -/
theorem optionBytesSet_patch_decision_witness :
    Event.logNeedPatch 0 ∈ (option_bytes_set 0 (fun _ => 7) (totalDev (fun _ => 0))
      (some (Image.mk [1, 0, 0, 0, 0, 0, 0, 0]
        [255, 255, 255, 255, 255, 255, 255, 255]
        [255, 255, 255, 255, 255, 255, 255, 255]))).1 :=
  (optionBytesSet_patch_decision 0 (fun _ => 7) (fun _ => 0)
    (Image.mk [1, 0, 0, 0, 0, 0, 0, 0]
      [255, 255, 255, 255, 255, 255, 255, 255]
      [255, 255, 255, 255, 255, 255, 255, 255]) 0 (by decide)).1.mpr (by decide)

/-- C2: every value option_bytes_set writes is
newValue = (live and not writeMask_i) or (reference_i and writeMask_i) in
32-bit arithmetic, so its bits outside the write mask agree with the live
value and its bits inside the write mask agree with the reference. -/
theorem optionBytesSet_write_values (base : Nat) (a : Nat → Nat) (f : Nat → Nat)
    (img : Image) (ad v : Nat) (hwb : ∀ b ∈ img.write_mask, b < 256)
    (hmem : Event.write32 ad v ∈ (option_bytes_set base a (totalDev f) (some img)).1) :
    ∃ i, i < img.reference.length / 8 ∧ ad = a i ∧
      v = newValue (f (base + i * 8) % 2 ^ 32) (unpack_u32 img.reference (i * 8))
          (unpack_u32 img.write_mask (i * 8)) ∧
      v &&& not32 (unpack_u32 img.write_mask (i * 8)) =
        f (base + i * 8) % 2 ^ 32 &&& not32 (unpack_u32 img.write_mask (i * 8)) ∧
      v &&& unpack_u32 img.write_mask (i * 8) =
        unpack_u32 img.reference (i * 8) &&& unpack_u32 img.write_mask (i * 8) := by
  obtain ⟨j, hj, hp, had, hv⟩ := (write32_mem_set_trace base a f img ad v).mp hmem
  have hw : unpack_u32 img.write_mask (j * 8) < 2 ^ 32 := unpack_u32_lt _ _ hwb
  subst hv
  exact ⟨j, hj, had, rfl, newValue_and_not32 _ _ _ hw, newValue_and_mask _ _ _ hw⟩

/-- Witness for the C2 theorem: the concrete write of value 1 performed on
an all-writable image preserves the (empty) bits outside the write mask. -/
theorem optionBytesSet_write_values_witness :
    (1 : Nat) &&& not32 (unpack_u32 [255, 255, 255, 255, 255, 255, 255, 255] 0) =
      (0 : Nat) % 2 ^ 32 &&& not32 (unpack_u32 [255, 255, 255, 255, 255, 255, 255, 255] 0) := by
  obtain ⟨i, hi, -, -, h1, -⟩ := optionBytesSet_write_values 0 (fun _ => 7) (fun _ => 0)
    (Image.mk [1, 0, 0, 0, 0, 0, 0, 0]
      [255, 255, 255, 255, 255, 255, 255, 255]
      [255, 255, 255, 255, 255, 255, 255, 255]) 7 1 (by decide) (by decide)
  have hi0 : i = 0 := by simp at hi; omega
  subst hi0
  simpa using h1

/-- C3: option_bytes_validate returns true (mismatch) exactly when some byte
index k below the buffer length has deviceByte[k] masked by the compare-mask
byte different from the reference byte, the device bytes being the
little-endian concatenation of the words read at base + j * 4; the reference
side is compared as given. The hypotheses are the image invariant under
which the byte indexing of the source is in range. -/
theorem optionBytesValidate_mismatch_iff (base : Nat) (f : Nat → Nat) (img : Image)
    (_hlen : img.compare_mask.length = img.reference.length)
    (_hdvd : 4 ∣ img.reference.length) :
    ((option_bytes_validate base (totalDev f) (some img)).2 = some true ↔
      ∃ k < img.reference.length,
        (ob_read_bytes base f (img.reference.length / 4)).getD k 0 &&&
          img.compare_mask.getD k 0 ≠ img.reference.getD k 0) :=
  validate_result_iff base f img

/-- Witness for the C3 theorem: an all-ones device against an all-zero
reference with a full compare mask is reported as a mismatch. -/
theorem optionBytesValidate_mismatch_iff_witness :
    (option_bytes_validate 0 (totalDev (fun _ => 1))
      (some (Image.mk [0, 0, 0, 0, 0, 0, 0, 0]
        [255, 255, 255, 255, 255, 255, 255, 255] [0, 0, 0, 0, 0, 0, 0, 0]))).2 =
      some true :=
  (optionBytesValidate_mismatch_iff 0 (fun _ => 1)
    (Image.mk [0, 0, 0, 0, 0, 0, 0, 0]
      [255, 255, 255, 255, 255, 255, 255, 255] [0, 0, 0, 0, 0, 0, 0, 0])
    (by decide) (by decide)).mpr ⟨0, by decide, by decide⟩

/-- C10: when some reference byte has a bit outside the corresponding
compare-mask byte, option_bytes_validate reports a mismatch for every
possible device, because the device side is masked at that bit while the
reference side is not re-masked. -/
theorem optionBytesValidate_reference_outside_mask (base : Nat) (f : Nat → Nat)
    (img : Image) (_hlen : img.compare_mask.length = img.reference.length)
    (_hdvd : 4 ∣ img.reference.length)
    (hcm : ∀ b ∈ img.compare_mask, b < 256)
    (hbad : ∃ k < img.reference.length,
      img.reference.getD k 0 &&& (255 ^^^ img.compare_mask.getD k 0) ≠ 0) :
    (option_bytes_validate base (totalDev f) (some img)).2 = some true := by
  apply (validate_result_iff base f img).mpr
  obtain ⟨k, hk, hb⟩ := hbad
  refine ⟨k, hk, ?_⟩
  have hkc : k < img.compare_mask.length := by rw [_hlen]; exact hk
  have hmem : img.compare_mask.getD k 0 ∈ img.compare_mask := by
    rw [List.getD_eq_getElem _ 0 hkc]
    exact List.getElem_mem hkc
  exact masked_ne_of_outside _ _ _ (hcm _ hmem) hb

/-- Witness for the C10 theorem: the reference byte 1 falls outside the
all-zero compare mask, so even a device reading back 1 everywhere fails. -/
theorem optionBytesValidate_reference_outside_mask_witness :
    (option_bytes_validate 0 (totalDev (fun _ => 1))
      (some (Image.mk [1, 0, 0, 0, 0, 0, 0, 0] [0, 0, 0, 0, 0, 0, 0, 0]
        [0, 0, 0, 0, 0, 0, 0, 0]))).2 = some true :=
  optionBytesValidate_reference_outside_mask 0 (fun _ => 1)
    (Image.mk [1, 0, 0, 0, 0, 0, 0, 0] [0, 0, 0, 0, 0, 0, 0, 0]
      [0, 0, 0, 0, 0, 0, 0, 0])
    (by decide) (by decide) (by decide) ⟨0, by decide, by decide⟩

/-- C4: the apply command appears in the trace exactly when some dword index
needed a patch; the load command is issued on every completed run, after
everything else but the closing reset and stop; and on an empty patch set
the run performs zero register writes and logs that the option bytes are
already correct. -/
theorem optionBytesSet_apply_iff_load_unconditional (base : Nat) (a : Nat → Nat)
    (f : Nat → Nat) (img : Image) :
    (Event.optionBytesApply ∈ (option_bytes_set base a (totalDev f) (some img)).1 ↔
      ∃ i < img.reference.length / 8, needsPatchB base f img i = true) ∧
    Event.optionBytesLoad ∈ (option_bytes_set base a (totalDev f) (some img)).1 ∧
    (∃ t, (option_bytes_set base a (totalDev f) (some img)).1 =
      t ++ [Event.optionBytesLoad, Event.resetRun, Event.stop]) ∧
    ((∀ i < img.reference.length / 8, needsPatchB base f img i = false) →
      (∀ ad v, Event.write32 ad v ∉ (option_bytes_set base a (totalDev f) (some img)).1) ∧
      Event.logAlreadyCorrect ∈ (option_bytes_set base a (totalDev f) (some img)).1) := by
  refine ⟨?_, load_mem_set_trace base a f img, ?_, ?_⟩
  · rw [apply_mem_set_trace]
    simp [List.any_eq_true]
  · cases hany : (List.range (img.reference.length / 8)).any (needsPatchB base f img) with
    | false =>
      refine ⟨[Event.start, Event.resetInit, Event.clearFlashErrors, Event.flashUnlock,
        Event.optionBytesUnlock] ++
        (List.range (img.reference.length / 8)).flatMap (dwordEvents base a f img) ++
        [Event.logAlreadyCorrect], ?_⟩
      simp only [option_bytes_set_totalDev, hany]
      simp
    | true =>
      refine ⟨[Event.start, Event.resetInit, Event.clearFlashErrors, Event.flashUnlock,
        Event.optionBytesUnlock] ++
        (List.range (img.reference.length / 8)).flatMap (dwordEvents base a f img) ++
        [Event.optionBytesApply], ?_⟩
      simp only [option_bytes_set_totalDev, hany]
      simp
  · intro h
    have hany : (List.range (img.reference.length / 8)).any (needsPatchB base f img) =
        false := by
      rw [List.any_eq_false]
      intro i hi
      simp [h i (List.mem_range.mp hi)]
    constructor
    · intro ad v hmem
      obtain ⟨j, hj, hp, -, -⟩ := (write32_mem_set_trace base a f img ad v).mp hmem
      rw [h j hj] at hp
      exact Bool.noConfusion hp
    · exact (alreadyCorrect_mem_set_trace base a f img).mpr hany

/-- Witness for the C4 theorem: on an all-zero image nothing is patched,
no apply is issued, yet load is issued and already-correct is logged. -/
theorem optionBytesSet_apply_iff_load_unconditional_witness :
    Event.optionBytesApply ∉ (option_bytes_set 0 (fun _ => 7) (totalDev (fun _ => 0))
      (some (Image.mk [0, 0, 0, 0, 0, 0, 0, 0] [0, 0, 0, 0, 0, 0, 0, 0]
        [0, 0, 0, 0, 0, 0, 0, 0]))).1 ∧
    Event.optionBytesLoad ∈ (option_bytes_set 0 (fun _ => 7) (totalDev (fun _ => 0))
      (some (Image.mk [0, 0, 0, 0, 0, 0, 0, 0] [0, 0, 0, 0, 0, 0, 0, 0]
        [0, 0, 0, 0, 0, 0, 0, 0]))).1 ∧
    Event.logAlreadyCorrect ∈ (option_bytes_set 0 (fun _ => 7) (totalDev (fun _ => 0))
      (some (Image.mk [0, 0, 0, 0, 0, 0, 0, 0] [0, 0, 0, 0, 0, 0, 0, 0]
        [0, 0, 0, 0, 0, 0, 0, 0]))).1 := by
  have h := optionBytesSet_apply_iff_load_unconditional 0 (fun _ => 7) (fun _ => 0)
    (Image.mk [0, 0, 0, 0, 0, 0, 0, 0] [0, 0, 0, 0, 0, 0, 0, 0] [0, 0, 0, 0, 0, 0, 0, 0])
  refine ⟨?_, h.2.1, (h.2.2.2 (by decide)).2⟩
  intro hmem
  obtain ⟨i, hi, hp⟩ := h.1.mp hmem
  have hi0 : i = 0 := by simp at hi; omega
  subst hi0
  exact absurd hp (by decide)

theorem setLoop_no_unlock_events (base : Nat) (a : Nat → Nat) (dev : Nat → Option Nat)
    (img : Image) :
    ∀ (l : List Nat) (acc : Bool),
      Event.clearFlashErrors ∉ (setLoop base a dev img l acc).1 ∧
      Event.flashUnlock ∉ (setLoop base a dev img l acc).1 ∧
      Event.optionBytesUnlock ∉ (setLoop base a dev img l acc).1 := by
  intro l
  induction l with
  | nil => intro acc; simp [setLoop]
  | cons i rest ih =>
    intro acc
    simp only [setLoop]
    cases hr : read32 dev (base + i * 8) with
    | none => simp
    | some v =>
      simp only
      split
      · have h := ih true
        simp [h.1, h.2.1, h.2.2]
      · have h := ih acc
        simp [h.1, h.2.1, h.2.2]

/-- C5: on every run of option_bytes_set that reaches the unlock phase, the
trace begins with session start, halt reset, clear-flash-errors,
flash-unlock and option-byte-unlock in that order, and none of the three
commands recurs later: flash-unlock is issued strictly before
option-byte-unlock and both are preceded by clear-flash-errors, for every
image and every device, including devices whose reads fail. -/
theorem optionBytesSet_unlock_order (base : Nat) (a : Nat → Nat)
    (dev : Nat → Option Nat) (img : Image) :
    ∃ t, (option_bytes_set base a dev (some img)).1 =
        Event.start :: Event.resetInit :: Event.clearFlashErrors ::
          Event.flashUnlock :: Event.optionBytesUnlock :: t ∧
      Event.clearFlashErrors ∉ t ∧ Event.flashUnlock ∉ t ∧
      Event.optionBytesUnlock ∉ t := by
  have hl := setLoop_no_unlock_events base a dev img
    (List.range (img.reference.length / 8)) false
  rcases hsl : setLoop base a dev img (List.range (img.reference.length / 8)) false
    with ⟨evs, res⟩
  rw [hsl] at hl
  cases res with
  | none =>
    refine ⟨evs, ?_, hl.1, hl.2.1, hl.2.2⟩
    simp [option_bytes_set, hsl]
  | some b =>
    refine ⟨evs ++ (if b then [Event.optionBytesApply] else [Event.logAlreadyCorrect]) ++
      [Event.optionBytesLoad, Event.resetRun, Event.stop], ?_, ?_, ?_, ?_⟩
    · simp [option_bytes_set, hsl]
    · cases b <;> simp [hl.1]
    · cases b <;> simp [hl.2.1]
    · cases b <;> simp [hl.2.2]

/-- Counterexample to C6 as stated: with a reference bit outside the compare
mask but inside the write mask, the first run patches dword 0, the write
takes effect (the second-run live value 1 is exactly the merged value the
first run wrote), yet the second run decides to patch again and performs a
register write: running set twice is not idempotent for such an image. -/
theorem optionBytesSet_not_idempotent_cex :
    needsPatchB 0 (fun _ => 0)
      (Image.mk [1, 0, 0, 0, 0, 0, 0, 0] [0, 0, 0, 0, 0, 0, 0, 0]
        [255, 255, 255, 255, 255, 255, 255, 255]) 0 = true ∧
    (1 : Nat) % 2 ^ 32 = newValue ((0 : Nat) % 2 ^ 32)
      (unpack_u32 [1, 0, 0, 0, 0, 0, 0, 0] 0)
      (unpack_u32 [255, 255, 255, 255, 255, 255, 255, 255] 0) ∧
    needsPatchB 0 (fun _ => 1)
      (Image.mk [1, 0, 0, 0, 0, 0, 0, 0] [0, 0, 0, 0, 0, 0, 0, 0]
        [255, 255, 255, 255, 255, 255, 255, 255]) 0 = true ∧
    Event.write32 1000 1 ∈ (option_bytes_set 0 (fun _ => 1000)
      (totalDev (fun _ => 1))
      (some (Image.mk [1, 0, 0, 0, 0, 0, 0, 0] [0, 0, 0, 0, 0, 0, 0, 0]
        [255, 255, 255, 255, 255, 255, 255, 255]))).1 := by decide

/-- C6 amended: when every reference word is pre-masked by its compare mask
(the image-producer assumption of spec section 4.2), a second run of
option_bytes_set on a device on which the first run's writes took effect
(patched dwords read back as the written merged value, others unchanged)
decides needsPatch(i) = false for every dword index and performs zero
register writes. -/
theorem optionBytesSet_idempotent_premasked (base : Nat) (a : Nat → Nat)
    (f g : Nat → Nat) (img : Image)
    (hwm : ∀ b ∈ img.write_mask, b < 256)
    (hpre : ∀ i < img.reference.length / 8,
      unpack_u32 img.reference (i * 8) &&& not32 (unpack_u32 img.compare_mask (i * 8)) = 0)
    (hg : ∀ i < img.reference.length / 8,
      g (base + i * 8) % 2 ^ 32 =
        if needsPatchB base f img i then
          newValue (f (base + i * 8) % 2 ^ 32) (unpack_u32 img.reference (i * 8))
            (unpack_u32 img.write_mask (i * 8))
        else f (base + i * 8) % 2 ^ 32) :
    (∀ i < img.reference.length / 8, needsPatchB base g img i = false) ∧
    ∀ ad v, Event.write32 ad v ∉ (option_bytes_set base a (totalDev g) (some img)).1 := by
  have hnp : ∀ i < img.reference.length / 8, needsPatchB base g img i = false := by
    intro i hi
    have hgi := hg i hi
    by_cases hf : needsPatchB base f img i
    · rw [if_pos hf] at hgi
      have h0 := needsPatch_after_patch (f (base + i * 8) % 2 ^ 32)
        (unpack_u32 img.reference (i * 8)) (unpack_u32 img.compare_mask (i * 8))
        (unpack_u32 img.write_mask (i * 8)) (unpack_u32_lt _ _ hwm) (hpre i hi)
      unfold needsPatchB
      rw [hgi, h0]
      decide
    · rw [if_neg hf] at hgi
      have heq : needsPatchB base g img i = needsPatchB base f img i := by
        unfold needsPatchB
        rw [hgi]
      rw [heq]
      simpa using hf
  refine ⟨hnp, ?_⟩
  intro ad v hmem
  obtain ⟨j, hj, hp, -, -⟩ := (write32_mem_set_trace base a g img ad v).mp hmem
  rw [hnp j hj] at hp
  exact Bool.noConfusion hp

/-- Witness for the amended C6 theorem at an all-zero image, where the
first run patches nothing and the device is unchanged. -/
theorem optionBytesSet_idempotent_premasked_witness :
    needsPatchB 0 (fun _ => 0)
      (Image.mk [0, 0, 0, 0, 0, 0, 0, 0] [0, 0, 0, 0, 0, 0, 0, 0]
        [0, 0, 0, 0, 0, 0, 0, 0]) 0 = false ∧
    Event.write32 5 7 ∉ (option_bytes_set 0 (fun _ => 9) (totalDev (fun _ => 0))
      (some (Image.mk [0, 0, 0, 0, 0, 0, 0, 0] [0, 0, 0, 0, 0, 0, 0, 0]
        [0, 0, 0, 0, 0, 0, 0, 0]))).1 := by
  have h := optionBytesSet_idempotent_premasked 0 (fun _ => 9) (fun _ => 0) (fun _ => 0)
    (Image.mk [0, 0, 0, 0, 0, 0, 0, 0] [0, 0, 0, 0, 0, 0, 0, 0] [0, 0, 0, 0, 0, 0, 0, 0])
    (by decide) (by decide) (by decide)
  exact ⟨h.1 0 (by decide), h.2 5 7⟩

/-- Counterexample to C7 as stated: with a missing or unparsable declaration
file, option_bytes_set has already started the probe session and reset the
device to halt when the failure escapes, so the failure is not raised
before the probe session is started. -/
theorem fileFailure_after_session_start_cex :
    Event.start ∈ (option_bytes_set 0 (fun _ => 0) (fun _ => none) none).1 ∧
    Event.resetInit ∈ (option_bytes_set 0 (fun _ => 0) (fun _ => none) none).1 ∧
    (option_bytes_set 0 (fun _ => 0) (fun _ => none) none).2 = none := by decide

/-- C7 amended: flash checks file existence before starting the session, so
a missing file fails with an empty interaction trace; option_bytes_validate
and option_bytes_set start the session and reset the device to halt before
parsing, so a missing or unparsable declaration file makes them fail after
those two interactions, though before any option-byte register access or
unlock command. -/
theorem fileFailure_semantics (base : Nat) (a : Nat → Nat) (dev : Nat → Option Nat) :
    flash false = ([], none) ∧
    option_bytes_validate base dev none = ([Event.start, Event.resetInit], none) ∧
    option_bytes_set base a dev none = ([Event.start, Event.resetInit], none) :=
  ⟨rfl, rfl, rfl⟩

/-- Counterexample to C8 as stated: when the very first option-byte read
raises, option_bytes_validate propagates the error with the session started
and never stopped: the stop is not executed on every exit path. -/
theorem sessionStop_skipped_on_error_cex :
    Event.start ∈ (option_bytes_validate 0 (fun _ => none)
      (some (Image.mk [0, 0, 0, 0, 0, 0, 0, 0] [0, 0, 0, 0, 0, 0, 0, 0]
        [0, 0, 0, 0, 0, 0, 0, 0]))).1 ∧
    Event.stop ∉ (option_bytes_validate 0 (fun _ => none)
      (some (Image.mk [0, 0, 0, 0, 0, 0, 0, 0] [0, 0, 0, 0, 0, 0, 0, 0]
        [0, 0, 0, 0, 0, 0, 0, 0]))).1 ∧
    (option_bytes_validate 0 (fun _ => none)
      (some (Image.mk [0, 0, 0, 0, 0, 0, 0, 0] [0, 0, 0, 0, 0, 0, 0, 0]
        [0, 0, 0, 0, 0, 0, 0, 0]))).2 = none := by decide

/-- C8 amended: the probe session stop is executed on every run of
option_bytes_validate, option_bytes_set and otp_write that completes
normally (returns a result); on runs where parsing or a probe read raises,
the exception propagates and the stop is skipped. -/
theorem sessionStop_on_normal_exit (base : Nat) (a : Nat → Nat)
    (dev : Nat → Option Nat) (p : Option Image) (address : Nat) :
    ((option_bytes_validate base dev p).2 ≠ none →
      Event.stop ∈ (option_bytes_validate base dev p).1) ∧
    ((option_bytes_set base a dev p).2 ≠ none →
      Event.stop ∈ (option_bytes_set base a dev p).1) ∧
    Event.stop ∈ (otp_write address).1 := by
  refine ⟨?_, ?_, by simp [otp_write]⟩
  · cases p with
    | none => intro h; simp [option_bytes_validate] at h
    | some img =>
      intro h
      rcases hvr : validateReads base dev (List.range (img.reference.length / 4))
        with ⟨evs, r⟩
      cases r with
      | none => simp [option_bytes_validate, hvr] at h
      | some bs => simp [option_bytes_validate, hvr]
  · cases p with
    | none => intro h; simp [option_bytes_set] at h
    | some img =>
      intro h
      rcases hsl : setLoop base a dev img (List.range (img.reference.length / 8)) false
        with ⟨evs, r⟩
      cases r with
      | none => simp [option_bytes_set, hsl] at h
      | some b => simp [option_bytes_set, hsl]

/-- Witness for the amended C8 theorem: three concrete normally-completing
runs whose traces contain the session stop. -/
theorem sessionStop_on_normal_exit_witness :
    Event.stop ∈ (option_bytes_validate 0 (totalDev (fun _ => 0))
      (some (Image.mk [] [] []))).1 ∧
    Event.stop ∈ (option_bytes_set 0 (fun _ => 0) (totalDev (fun _ => 0))
      (some (Image.mk [] [] []))).1 ∧
    Event.stop ∈ (otp_write 5).1 := by
  have h := sessionStop_on_normal_exit 0 (fun _ => 0) (totalDev (fun _ => 0))
    (some (Image.mk [] [] [])) 5
  exact ⟨h.1 (by decide), h.2.1 (by decide), h.2.2⟩

/-- C9: for an 8-byte chunk pair, equal chunks render every one of the eight
hex-pair positions of both diff columns as two underscores; when exactly one
byte differs, at position k, that position renders as the literal two-digit
hex of the respective chunk in each column and the other seven positions
render as two underscores. -/
theorem diffRow_rendering (ref rd : List Nat) (k : Nat)
    (h1 : ref.length = 8) (h2 : rd.length = 8)
    (hr : ∀ b ∈ ref, b < 256) (hd : ∀ b ∈ rd, b < 256) :
    (ref = rd →
      diffRow ref rd = ((List.replicate 8 (['_', '_'] : List Char)).flatten,
        (List.replicate 8 (['_', '_'] : List Char)).flatten)) ∧
    (k < 8 → (∀ i < 8, i ≠ k → ref.getD i 0 = rd.getD i 0) →
      ref.getD k 0 ≠ rd.getD k 0 →
      diffRow ref rd =
        (((List.range 8).map (fun i =>
            if i = k then hexPair (ref.getD i 0) else ['_', '_'])).flatten,
          ((List.range 8).map (fun i =>
            if i = k then hexPair (rd.getD i 0) else ['_', '_'])).flatten)) := by
  constructor
  · intro he
    rw [diffRow_eq, h1, he]
    rw [show (fun i => if charSlice (bytesHex rd) (2 * i) (2 * i + 2) =
          charSlice (bytesHex rd) (2 * i) (2 * i + 2)
        then (['_', '_'] : List Char)
        else charSlice (bytesHex rd) (2 * i) (2 * i + 2)) =
        fun _ => (['_', '_'] : List Char) from funext fun i => if_pos rfl]
    rfl
  · intro hk hagree hne
    rw [diffRow_eq, h1]
    have hmap1 : (List.range 8).map (fun i =>
        if charSlice (bytesHex ref) (2 * i) (2 * i + 2) =
            charSlice (bytesHex rd) (2 * i) (2 * i + 2)
        then ['_', '_'] else charSlice (bytesHex ref) (2 * i) (2 * i + 2)) =
        (List.range 8).map (fun i =>
          if i = k then hexPair (ref.getD i 0) else ['_', '_']) := by
      apply List.map_congr_left
      intro i hi
      have hi8 : i < 8 := List.mem_range.mp hi
      rw [charSlice_bytesHex ref i (by omega), charSlice_bytesHex rd i (by omega)]
      by_cases hik : i = k
      · subst hik
        have hbr : ref.getD i 0 < 256 := by
          have hkl : i < ref.length := by omega
          rw [List.getD_eq_getElem _ 0 hkl]
          exact hr _ (List.getElem_mem hkl)
        have hbd : rd.getD i 0 < 256 := by
          have hkl : i < rd.length := by omega
          rw [List.getD_eq_getElem _ 0 hkl]
          exact hd _ (List.getElem_mem hkl)
        rw [if_neg (fun hcontra => hne ((hexPair_inj _ _ hbr hbd).mp hcontra)),
          if_pos rfl]
      · rw [hagree i hi8 hik, if_pos rfl, if_neg hik]
    have hmap2 : (List.range 8).map (fun i =>
        if charSlice (bytesHex ref) (2 * i) (2 * i + 2) =
            charSlice (bytesHex rd) (2 * i) (2 * i + 2)
        then ['_', '_'] else charSlice (bytesHex rd) (2 * i) (2 * i + 2)) =
        (List.range 8).map (fun i =>
          if i = k then hexPair (rd.getD i 0) else ['_', '_']) := by
      apply List.map_congr_left
      intro i hi
      have hi8 : i < 8 := List.mem_range.mp hi
      rw [charSlice_bytesHex ref i (by omega), charSlice_bytesHex rd i (by omega)]
      by_cases hik : i = k
      · subst hik
        have hbr : ref.getD i 0 < 256 := by
          have hkl : i < ref.length := by omega
          rw [List.getD_eq_getElem _ 0 hkl]
          exact hr _ (List.getElem_mem hkl)
        have hbd : rd.getD i 0 < 256 := by
          have hkl : i < rd.length := by omega
          rw [List.getD_eq_getElem _ 0 hkl]
          exact hd _ (List.getElem_mem hkl)
        rw [if_neg (fun hcontra => hne ((hexPair_inj _ _ hbr hbd).mp hcontra)),
          if_pos rfl]
      · rw [hagree i hi8 hik, if_pos rfl, if_neg hik]
    rw [hmap1, hmap2]

/-- Witness for the C9 theorem: an equal pair rendering as all underscores,
and a pair differing only at position 4 rendering literal hex there. -/
theorem diffRow_rendering_witness :
    diffRow [0, 0, 0, 0, 0, 0, 0, 0] [0, 0, 0, 0, 0, 0, 0, 0] =
      ((List.replicate 8 (['_', '_'] : List Char)).flatten,
        (List.replicate 8 (['_', '_'] : List Char)).flatten) ∧
    diffRow [1, 2, 3, 4, 5, 6, 7, 8] [1, 2, 3, 4, 9, 6, 7, 8] =
      (((List.range 8).map (fun i =>
          if i = 4 then hexPair ([1, 2, 3, 4, 5, 6, 7, 8].getD i 0)
          else ['_', '_'])).flatten,
        ((List.range 8).map (fun i =>
          if i = 4 then hexPair ([1, 2, 3, 4, 9, 6, 7, 8].getD i 0)
          else ['_', '_'])).flatten) :=
  ⟨(diffRow_rendering [0, 0, 0, 0, 0, 0, 0, 0] [0, 0, 0, 0, 0, 0, 0, 0] 0
      (by decide) (by decide) (by decide) (by decide)).1 rfl,
    (diffRow_rendering [1, 2, 3, 4, 5, 6, 7, 8] [1, 2, 3, 4, 9, 6, 7, 8] 4
      (by decide) (by decide) (by decide) (by decide)).2
      (by decide) (by decide) (by decide)⟩

end OpenOCDProgrammer
